import Mathlib

/-!
Shallow embedding of scripts/reformat.py: the text normalizer
(normalize_text), the path classifiers (is_makefile_like,
is_potentially_text), the decoder (utf-8-sig with optional legacy
fallback) and the per-file processor (process_file) together with the
file loop and the exit code of main.  Text is a list of characters,
bytes are a list of naturals.
-/

namespace Reformat

/-- Bytes are modelled as natural numbers below 256. -/
abbrev Byte := Nat

/-- The character class used by the leading-run scan and by
the trailing trim rstrip of the source: space or tab. -/
def isSpTab (c : Char) : Bool := c == ' ' || c == '\t'

/-- line.replace of a tab by indent_size spaces, applied to every
character of the list. -/
def expandTabs (n : Nat) : List Char → List Char
  | [] => []
  | c :: t => (if c = '\t' then List.replicate n ' ' else [c]) ++ expandTabs n t

/-- line.rstrip of trailing spaces and tabs. -/
def rstrip (l : List Char) : List Char := (l.reverse.dropWhile isSpTab).reverse

/-- The tab-conversion step of normalize_text for one line: aggressive
mode replaces every tab, default mode expands only the leading run of
spaces and tabs. -/
def convertLine (n : Nat) (aggressive : Bool) (line : List Char) : List Char :=
  if aggressive then expandTabs n line
  else expandTabs n (line.takeWhile isSpTab) ++ line.dropWhile isSpTab

/-- The keyword arguments of normalize_text. -/
structure Config where
  indent_size : Nat
  convert_tabs : Bool
  aggressive_tabs : Bool
  keep_tabs : Bool

/-- The per-line body of the loop of normalize_text: optional tab
conversion followed by the trailing-whitespace trim. -/
def procLine (cfg : Config) (line : List Char) : List Char :=
  rstrip (if cfg.convert_tabs && !cfg.keep_tabs then
            convertLine cfg.indent_size cfg.aggressive_tabs line
          else line)

/-- s.split of a newline: every segment between newline characters,
with the empty segment before, between and after separators kept. -/
def splitNl : List Char → List (List Char)
  | [] => [[]]
  | c :: t =>
    if c = '\n' then [] :: splitNl t
    else
      match splitNl t with
      | [] => [[c]]
      | l :: ls => (c :: l) :: ls

/-- The join of lines by a single newline between consecutive lines. -/
def joinNl : List (List Char) → List Char
  | [] => []
  | [l] => l
  | l :: ls => l ++ '\n' :: joinNl ls

/-- s.replace of the two-character CR-LF by LF, scanning left to right. -/
def replCRLF : List Char → List Char
  | [] => []
  | [c] => [c]
  | c :: d :: t =>
    if c = '\r' ∧ d = '\n' then '\n' :: replCRLF t
    else c :: replCRLF (d :: t)

/-- The newline-unification step of normalize_text: CR-LF to LF, then
every remaining lone CR to LF. -/
def nlNorm (s : List Char) : List Char :=
  (replCRLF s).map (fun c => if c = '\r' then '\n' else c)

/-- text.endswith of a newline. -/
def endsWithNl (l : List Char) : Bool := l.getLast? == some '\n'

/-- The last two steps of normalize_text: rejoin the processed lines
and append a final newline when the text does not end with one. -/
def joinFix (L : List (List Char)) : List Char :=
  if endsWithNl (joinNl L) then joinNl L else joinNl L ++ ['\n']

/-- normalize_text of reformat.py: unify newlines, split into lines,
convert tabs and trim each line, rejoin, ensure one final newline. -/
def normalize_text (cfg : Config) (s : List Char) : List Char :=
  joinFix ((splitNl (nlNorm s)).map (procLine cfg))

/-- A path as seen by the script: only its final name component is
inspected (Path.name). -/
structure PyPath where
  name : List Char
deriving DecidableEq

/-- Splits a name at its last dot: the part before and the part after,
or none when the name holds no dot. -/
def lastDotSplit : List Char → Option (List Char × List Char)
  | [] => none
  | c :: t =>
    match lastDotSplit t with
    | some (p, r) => some (c :: p, r)
    | none => if c = '.' then some ([], t) else none

/-- Path.suffix of pathlib: the extension from the last dot of the
final component, empty when that dot is the first or last character. -/
def pySuffix (name : List Char) : List Char :=
  match lastDotSplit name with
  | some (p, r) => if p ≠ [] ∧ r ≠ [] then '.' :: r else []
  | none => []

/-- str.lower restricted to the ASCII letters, enough for the
extension sets the script compares against. -/
def lowerStr (l : List Char) : List Char := l.map Char.toLower

/-- The makefile base names the script must not de-tab. -/
def MAKEFILE_NAMES : List (List Char) :=
  [("Makefile").data, ("makefile").data, ("GNUmakefile").data]

/-- The makefile extensions the script must not de-tab. -/
def MAKEFILE_EXTS : List (List Char) := [(".mk").data, (".mak").data]

/-- The binary extensions excluded from processing. -/
def BINARY_EXTS : List (List Char) :=
  [(".png").data, (".jpg").data, (".jpeg").data, (".gif").data, (".bmp").data,
   (".ico").data, (".pdf").data, (".zip").data, (".gz").data, (".bz2").data,
   (".xz").data, (".7z").data, (".rar").data, (".jar").data, (".war").data,
   (".ear").data, (".class").data, (".exe").data, (".dll").data, (".pdb").data,
   (".so").data, (".dylib").data, (".a").data, (".o").data, (".obj").data,
   (".bin").data, (".psd").data, (".ai").data, (".sketch").data, (".blend").data,
   (".fbx").data, (".glb").data, (".glTF").data, (".otf").data, (".ttf").data,
   (".woff").data, (".woff2").data, (".eot").data, (".wasm").data, (".mp3").data,
   (".mp4").data, (".mov").data, (".avi").data, (".mkv").data, (".webm").data,
   (".iso").data]

/-- is_makefile_like of reformat.py. -/
def is_makefile_like (path : PyPath) : Bool :=
  MAKEFILE_NAMES.contains path.name ||
    MAKEFILE_EXTS.contains (lowerStr (pySuffix path.name))

/-- looks_binary_bytes of reformat.py: a NUL byte in the sample. -/
def looks_binary_bytes (sample : List Byte) : Bool := sample.contains 0

/-- is_potentially_text of reformat.py. -/
def is_potentially_text (path : PyPath) (head : List Byte) : Bool :=
  if BINARY_EXTS.contains (lowerStr (pySuffix path.name)) then false
  else !(looks_binary_bytes head)

/-- A UTF-8 continuation byte. -/
def isCont (b : Byte) : Prop := 0x80 ≤ b ∧ b < 0xC0

instance (b : Byte) : Decidable (isCont b) := by
  unfold isCont; infer_instance

/-- Strict UTF-8 decoding of a byte list, as bytes.decode of Python:
rejects continuation bytes out of place, overlong forms, surrogate
code points and code points beyond 0x10FFFF. -/
def utf8Dec : List Byte → Option (List Char)
  | [] => some []
  | b0 :: t =>
    if b0 < 0x80 then
      (utf8Dec t).map (fun cs => Char.ofNat b0 :: cs)
    else if b0 < 0xC2 then none
    else if b0 < 0xE0 then
      match t with
      | b1 :: t1 =>
        if isCont b1 then
          (utf8Dec t1).map (fun cs =>
            Char.ofNat ((b0 - 0xC0) * 0x40 + (b1 - 0x80)) :: cs)
        else none
      | [] => none
    else if b0 < 0xF0 then
      match t with
      | b1 :: b2 :: t2 =>
        if isCont b1 ∧ isCont b2 then
          if 0x800 ≤ (b0 - 0xE0) * 0x1000 + (b1 - 0x80) * 0x40 + (b2 - 0x80) ∧
             ¬ (0xD800 ≤ (b0 - 0xE0) * 0x1000 + (b1 - 0x80) * 0x40 + (b2 - 0x80) ∧
                (b0 - 0xE0) * 0x1000 + (b1 - 0x80) * 0x40 + (b2 - 0x80) < 0xE000) then
            (utf8Dec t2).map (fun cs =>
              Char.ofNat ((b0 - 0xE0) * 0x1000 + (b1 - 0x80) * 0x40 + (b2 - 0x80)) :: cs)
          else none
        else none
      | _ => none
    else if b0 < 0xF5 then
      match t with
      | b1 :: b2 :: b3 :: t3 =>
        if isCont b1 ∧ isCont b2 ∧ isCont b3 then
          if 0x10000 ≤ (b0 - 0xF0) * 0x40000 + (b1 - 0x80) * 0x1000 +
               (b2 - 0x80) * 0x40 + (b3 - 0x80) ∧
             (b0 - 0xF0) * 0x40000 + (b1 - 0x80) * 0x1000 +
               (b2 - 0x80) * 0x40 + (b3 - 0x80) ≤ 0x10FFFF then
            (utf8Dec t3).map (fun cs =>
              Char.ofNat ((b0 - 0xF0) * 0x40000 + (b1 - 0x80) * 0x1000 +
                (b2 - 0x80) * 0x40 + (b3 - 0x80)) :: cs)
          else none
        else none
      | _ => none
    else none

/-- raw.decode of the utf-8-sig codec: a leading byte-order mark is
stripped, the rest is strict UTF-8. -/
def utf8SigDecode (raw : List Byte) : Option (List Char) :=
  match raw with
  | 0xEF :: 0xBB :: 0xBF :: rest => utf8Dec rest
  | _ => utf8Dec raw

/-- UTF-8 encoding of one Unicode scalar value. -/
def utf8EncodeChar (c : Char) : List Byte :=
  let n := c.toNat
  if n < 0x80 then [n]
  else if n < 0x800 then [0xC0 + n / 0x40, 0x80 + n % 0x40]
  else if n < 0x10000 then
    [0xE0 + n / 0x1000, 0x80 + (n / 0x40) % 0x40, 0x80 + n % 0x40]
  else
    [0xF0 + n / 0x40000, 0x80 + (n / 0x1000) % 0x40,
     0x80 + (n / 0x40) % 0x40, 0x80 + n % 0x40]

/-- text.encode of UTF-8. -/
def utf8Encode : List Char → List Byte
  | [] => []
  | c :: t => utf8EncodeChar c ++ utf8Encode t

/-- INDENT_SIZE of reformat.py. -/
def INDENT_SIZE : Nat := 4

/-- The error class raised by the fallback raw.decode call: a Unicode
decode error (caught by process_file) or a codec lookup error for an
unknown encoding name (not caught). -/
inductive DecErr
  | unicode
  | lookup
deriving DecidableEq

/-- The per-file message process_file prints besides returning. -/
inductive Msg
  | needsFix
  | errorWriting
  | fixed
deriving DecidableEq

/-- The observable result of one process_file call: the returned
boolean, the bytes actually written to the file (none when the file is
untouched), whether a re-stage of the path was requested, and the
message printed. -/
structure PResult where
  ret : Bool
  written : Option (List Byte)
  restaged : Bool
  msg : Option Msg
deriving DecidableEq

/-- The command-line options process_file receives from main. -/
structure Args where
  recodeFrom : Bool
  aggressive : Bool
  checkOnly : Bool
  restage : Bool

/-- The environment of one process_file call: the path, the bytes
path.read_bytes yields (none when the read raises), the outcome of the
legacy raw.decode call when a fallback encoding was supplied, and
whether path.write_bytes would succeed. -/
structure Env where
  path : PyPath
  raw : Option (List Byte)
  fallbackDec : Except DecErr (List Char)
  writeOk : Bool

/-- The result process_file returns on every skip path and on the
unchanged path: False, no write, no re-stage, no message. -/
def skipResult : PResult := ⟨false, none, false, none⟩

/-- The two-tier decode of process_file: utf-8-sig first; on a Unicode
error, the fallback encoding when supplied.  ok none is the caught
skip, error propagates an uncaught exception. -/
def decodeStep (env : Env) (a : Args) (raw : List Byte) :
    Except DecErr (Option (List Char)) :=
  match utf8SigDecode raw with
  | some t => .ok (some t)
  | none =>
    if a.recodeFrom then
      match env.fallbackDec with
      | .ok t => .ok (some t)
      | .error .unicode => .ok none
      | .error .lookup => .error .lookup
    else .ok none

/-- The tail of process_file after a successful decode: normalize,
re-encode, compare, and write or report according to the mode. -/
def afterDecode (env : Env) (a : Args) (raw : List Byte)
    (decoded : List Char) : PResult :=
  let newBytes := utf8Encode (normalize_text
    ⟨INDENT_SIZE, true, a.aggressive, is_makefile_like env.path⟩ decoded)
  if newBytes ≠ raw then
    if a.checkOnly then ⟨true, none, false, some .needsFix⟩
    else if env.writeOk then ⟨true, some newBytes, a.restage, some .fixed⟩
    else ⟨false, none, false, some .errorWriting⟩
  else skipResult

/-- process_file of reformat.py: read, classify, decode, normalize,
compare and conditionally write.  An uncaught exception of the
fallback decode propagates as an error. -/
def processFile (env : Env) (a : Args) : Except DecErr PResult :=
  match env.raw with
  | none => .ok skipResult
  | some raw =>
    if is_potentially_text env.path (raw.take 8192) then
      match decodeStep env a raw with
      | .error e => .error e
      | .ok none => .ok skipResult
      | .ok (some d) => .ok (afterDecode env a raw d)
    else .ok skipResult

/-- The per-file loop of main over the candidate files: each file is
processed in order, an uncaught exception aborts the run. -/
def runFiles (a : Args) : List Env → Except DecErr (List PResult)
  | [] => .ok []
  | e :: es =>
    match processFile e a with
    | .error err => .error err
    | .ok r => (runFiles a es).map (fun rs => r :: rs)

/-- The exit code main computes from the loop: 1 when check mode saw a
file needing changes, else 0. -/
def mainExit (a : Args) (envs : List Env) : Except DecErr Nat :=
  (runFiles a envs).map
    (fun rs => if a.checkOnly && rs.any (fun r => r.ret) then 1 else 0)

instance {a b : Type} [DecidableEq a] [DecidableEq b] : DecidableEq (Except a b)
  | .ok x, .ok y => if h : x = y then .isTrue (by rw [h]) else .isFalse (by simp [h])
  | .ok _, .error _ => .isFalse (by simp)
  | .error _, .ok _ => .isFalse (by simp)
  | .error e, .error f =>
    if h : e = f then .isTrue (by rw [h]) else .isFalse (by simp [h])

end Reformat

namespace Reformat

theorem dropWhile_head_false {p : Char → Bool} {l t : List Char} {c : Char}
    (h : l.dropWhile p = c :: t) : p c = false := by
  have hh := List.head?_dropWhile_not p l
  rw [h] at hh
  simpa using hh

theorem dropWhile_idem {p : Char → Bool} (l : List Char) :
    (l.dropWhile p).dropWhile p = l.dropWhile p := by
  cases h : l.dropWhile p with
  | nil => simp
  | cons c t => simp [List.dropWhile_cons, dropWhile_head_false h]

theorem dropWhile_append_of_nil {p : Char → Bool} {u v : List Char}
    (h : u.dropWhile p = []) : (u ++ v).dropWhile p = v.dropWhile p := by
  rw [List.dropWhile_append, h]
  simp

theorem dropWhile_append_of_ne_nil {p : Char → Bool} {u v : List Char}
    (h : u.dropWhile p ≠ []) : (u ++ v).dropWhile p = u.dropWhile p ++ v := by
  rw [List.dropWhile_append]
  simp [List.isEmpty_iff, h]

theorem rstrip_eq_nil_iff {l : List Char} :
    rstrip l = [] ↔ ∀ c ∈ l, isSpTab c = true := by
  simp [rstrip, List.dropWhile_eq_nil_iff]

theorem mem_rstrip {l : List Char} {c : Char} (h : c ∈ rstrip l) : c ∈ l := by
  unfold rstrip at h
  rw [List.mem_reverse] at h
  exact List.mem_reverse.mp ((List.dropWhile_sublist _).mem h)

theorem rstrip_idem (l : List Char) : rstrip (rstrip l) = rstrip l := by
  unfold rstrip
  rw [List.reverse_reverse, dropWhile_idem]

theorem rstrip_append {x b : List Char} (h : rstrip b ≠ []) :
    rstrip (x ++ b) = x ++ rstrip b := by
  have hb : b.reverse.dropWhile isSpTab ≠ [] := by
    intro e
    apply h
    unfold rstrip
    rw [e]
    rfl
  unfold rstrip
  rw [List.reverse_append, dropWhile_append_of_ne_nil hb, List.reverse_append,
    List.reverse_reverse]

theorem rstrip_cons_of_false {c : Char} {t : List Char} (h : isSpTab c = false) :
    rstrip (c :: t) = c :: rstrip t := by
  cases hd : t.reverse.dropWhile isSpTab with
  | nil =>
    have h1 : rstrip t = [] := by unfold rstrip; rw [hd]; rfl
    have h2 : rstrip (c :: t) = [c] := by
      unfold rstrip
      rw [List.reverse_cons, dropWhile_append_of_nil hd]
      simp [List.dropWhile_cons, h]
    rw [h1, h2]
  | cons x xs =>
    unfold rstrip
    rw [List.reverse_cons, dropWhile_append_of_ne_nil (by rw [hd]; simp)]
    simp

theorem rstrip_decomp (l : List Char) :
    l = rstrip l ++ (l.reverse.takeWhile isSpTab).reverse ∧
      ∀ c ∈ (l.reverse.takeWhile isSpTab).reverse, isSpTab c = true := by
  constructor
  · conv_lhs => rw [← l.reverse_reverse,
      ← List.takeWhile_append_dropWhile isSpTab l.reverse]
    rw [List.reverse_append]
    rfl
  · intro c hc
    rw [List.mem_reverse] at hc
    exact List.mem_takeWhile_imp hc

theorem mem_expandTabs {n : Nat} {l : List Char} {c : Char}
    (h : c ∈ expandTabs n l) : c ∈ l ∨ c = ' ' := by
  induction l with
  | nil => simp [expandTabs] at h
  | cons d t ih =>
    rw [expandTabs, List.mem_append] at h
    rcases h with h | h
    · by_cases hd : d = '\t'
      · right
        rw [if_pos hd] at h
        exact List.eq_of_mem_replicate h
      · left
        rw [if_neg hd] at h
        simp at h
        simp [h]
    · rcases ih h with h | h
      · left; simp [h]
      · right; exact h

theorem no_tab_expandTabs {n : Nat} {l : List Char} : '\t' ∉ expandTabs n l := by
  induction l with
  | nil => simp [expandTabs]
  | cons d t ih =>
    rw [expandTabs, List.mem_append]
    rintro (h | h)
    · by_cases hd : d = '\t'
      · rw [if_pos hd] at h
        have := List.eq_of_mem_replicate h
        exact absurd this (by decide)
      · rw [if_neg hd] at h
        simp at h
        exact hd h.symm
    · exact ih h

theorem mem_expandTabs_of_ne_tab {n : Nat} {l : List Char} {c : Char}
    (hc : c ∈ l) (ht : c ≠ '\t') : c ∈ expandTabs n l := by
  induction l with
  | nil => simp at hc
  | cons d t ih =>
    rw [expandTabs, List.mem_append]
    rcases List.mem_cons.mp hc with e | e
    · left
      subst e
      rw [if_neg ht]
      simp
    · right
      exact ih e

theorem expandTabs_eq_self {n : Nat} {l : List Char} (h : '\t' ∉ l) :
    expandTabs n l = l := by
  induction l with
  | nil => rfl
  | cons d t ih =>
    have hd : d ≠ '\t' := fun e => h (by simp [e])
    rw [expandTabs, if_neg hd, ih (fun hm => h (by simp [hm]))]
    simp

theorem expandTabs_all_space {n : Nat} {l : List Char}
    (h : ∀ c ∈ l, isSpTab c = true) : ∀ c ∈ expandTabs n l, c = ' ' := by
  intro c hc
  rcases mem_expandTabs hc with h1 | h1
  · have h2 : c = ' ' ∨ c = '\t' := by simpa [isSpTab] using h c h1
    rcases h2 with e | e
    · exact e
    · exact absurd (e ▸ hc) no_tab_expandTabs
  · exact h1

theorem takeWhile_all_append {p : Char → Bool} {E r : List Char} {c : Char}
    (hE : ∀ x ∈ E, p x = true) (hc : p c = false) :
    (E ++ c :: r).takeWhile p = E ∧ (E ++ c :: r).dropWhile p = c :: r := by
  induction E with
  | nil => simp [List.takeWhile_cons, List.dropWhile_cons, hc]
  | cons e E ih =>
    have he : p e = true := hE e (by simp)
    obtain ⟨h1, h2⟩ := ih (fun x hx => hE x (by simp [hx]))
    simp [List.takeWhile_cons, List.dropWhile_cons, he, h1, h2]

end Reformat

namespace Reformat

theorem splitNl_ne_nil (s : List Char) : splitNl s ≠ [] := by
  cases s with
  | nil => simp [splitNl]
  | cons c t =>
    rw [splitNl]
    by_cases h : c = '\n'
    · rw [if_pos h]; simp
    · rw [if_neg h]
      cases splitNl t <;> simp

theorem noNl_mem_splitNl {s l : List Char} (h : l ∈ splitNl s) : '\n' ∉ l := by
  induction s generalizing l with
  | nil =>
    simp [splitNl] at h
    subst h
    simp
  | cons c t ih =>
    rw [splitNl] at h
    by_cases hc : c = '\n'
    · rw [if_pos hc] at h
      rcases List.mem_cons.mp h with e | e
      · subst e; simp
      · exact ih e
    · rw [if_neg hc] at h
      cases hs : splitNl t with
      | nil => exact absurd hs (splitNl_ne_nil t)
      | cons m ms =>
        rw [hs] at h
        rcases List.mem_cons.mp h with e | e
        · subst e
          intro hm
          rcases List.mem_cons.mp hm with e1 | e1
          · exact hc e1.symm
          · exact ih (by rw [hs]; simp) e1
        · exact ih (by rw [hs]; simp [e])

theorem mem_of_mem_splitNl {s l : List Char} {c : Char}
    (hl : l ∈ splitNl s) (hc : c ∈ l) : c ∈ s := by
  induction s generalizing l with
  | nil =>
    simp [splitNl] at hl
    subst hl
    simp at hc
  | cons d t ih =>
    rw [splitNl] at hl
    by_cases hd : d = '\n'
    · rw [if_pos hd] at hl
      rcases List.mem_cons.mp hl with e | e
      · subst e; simp at hc
      · simp [ih e hc]
    · rw [if_neg hd] at hl
      cases hs : splitNl t with
      | nil => exact absurd hs (splitNl_ne_nil t)
      | cons m ms =>
        rw [hs] at hl
        rcases List.mem_cons.mp hl with e | e
        · subst e
          rcases List.mem_cons.mp hc with e1 | e1
          · simp [e1]
          · simp [ih (by rw [hs]; simp) e1]
        · simp [ih (by rw [hs]; simp [e]) hc]

theorem splitNl_append_noNl {l s m : List Char} {ms : List (List Char)}
    (hl : '\n' ∉ l) (hs : splitNl s = m :: ms) :
    splitNl (l ++ s) = (l ++ m) :: ms := by
  induction l with
  | nil => simpa using hs
  | cons c t ih =>
    have hc : c ≠ '\n' := fun e => hl (by simp [e])
    have ht : '\n' ∉ t := fun h => hl (by simp [h])
    rw [List.cons_append, splitNl, if_neg hc, ih ht]
    simp

theorem splitNl_noNl {l : List Char} (hl : '\n' ∉ l) : splitNl l = [l] := by
  have h := splitNl_append_noNl (s := []) hl (by rfl)
  simpa using h

theorem splitNl_append_nl {l r : List Char} (hl : '\n' ∉ l) :
    splitNl (l ++ '\n' :: r) = l :: splitNl r := by
  have h2 : splitNl ('\n' :: r) = [] :: splitNl r := by
    rw [splitNl]; simp
  have h := splitNl_append_noNl hl h2
  simpa using h

theorem joinNl_cons (l : List Char) (L : List (List Char)) (h : L ≠ []) :
    joinNl (l :: L) = l ++ '\n' :: joinNl L := by
  cases L with
  | nil => exact absurd rfl h
  | cons m ms => rfl

theorem splitNl_joinNl {L : List (List Char)} (h : L ≠ [])
    (hn : ∀ l ∈ L, '\n' ∉ l) : splitNl (joinNl L) = L := by
  induction L with
  | nil => exact absurd rfl h
  | cons l L ih =>
    cases L with
    | nil => exact splitNl_noNl (hn l (by simp))
    | cons m ms =>
      rw [joinNl_cons l _ (by simp), splitNl_append_nl (hn l (by simp)),
        ih (by simp) (fun x hx => hn x (by simp [hx]))]

theorem joinNl_concat {L : List (List Char)} (h : L ≠ []) (x : List Char) :
    joinNl (L ++ [x]) = joinNl L ++ '\n' :: x := by
  induction L with
  | nil => exact absurd rfl h
  | cons l L ih =>
    cases L with
    | nil => simp [joinNl]
    | cons m ms =>
      rw [List.cons_append, joinNl_cons l _ (by simp),
        joinNl_cons l _ (by simp), ih (by simp)]
      simp

theorem mem_joinNl {L : List (List Char)} {c : Char} (h : c ∈ joinNl L) :
    c = '\n' ∨ ∃ l ∈ L, c ∈ l := by
  induction L with
  | nil => simp [joinNl] at h
  | cons l L ih =>
    cases L with
    | nil => right; exact ⟨l, by simp, h⟩
    | cons m ms =>
      rw [joinNl_cons l _ (by simp)] at h
      rcases List.mem_append.mp h with h1 | h1
      · right; exact ⟨l, by simp, h1⟩
      · rcases List.mem_cons.mp h1 with e | h2
        · left; exact e
        · rcases ih h2 with e | ⟨x, hx, hcx⟩
          · left; exact e
          · right; exact ⟨x, by simp [hx], hcx⟩

theorem endsWithNl_concat_nl (x : List Char) : endsWithNl (x ++ ['\n']) = true := by
  simp [endsWithNl, List.getLast?_concat]

end Reformat

namespace Reformat

theorem procLine_keep {cfg : Config} (hk : cfg.keep_tabs = true) (l : List Char) :
    procLine cfg l = rstrip l := by
  simp [procLine, hk]

theorem procLine_nil (cfg : Config) : procLine cfg [] = [] := by
  by_cases h : (cfg.convert_tabs && !cfg.keep_tabs) = true
  · rw [procLine, if_pos h]
    by_cases ha : cfg.aggressive_tabs = true <;>
      simp [convertLine, expandTabs, rstrip, ha]
  · rw [procLine, if_neg h]
    simp [rstrip]

theorem mem_procLine {cfg : Config} {l : List Char} {c : Char}
    (h : c ∈ procLine cfg l) : c ∈ l ∨ c = ' ' := by
  rw [procLine] at h
  have h1 := mem_rstrip h
  by_cases hc : (cfg.convert_tabs && !cfg.keep_tabs) = true
  · rw [if_pos hc, convertLine] at h1
    by_cases ha : cfg.aggressive_tabs = true
    · rw [if_pos ha] at h1
      exact mem_expandTabs h1
    · rw [if_neg ha] at h1
      rcases List.mem_append.mp h1 with h2 | h2
      · rcases mem_expandTabs h2 with h3 | h3
        · left
          exact (List.takeWhile_sublist _).mem h3
        · right
          exact h3
      · left
        exact (List.dropWhile_sublist _).mem h2
  · rw [if_neg hc] at h1
    left
    exact h1

theorem procLine_eq_nil_iff {cfg : Config} {l : List Char} :
    procLine cfg l = [] ↔ ∀ c ∈ l, isSpTab c = true := by
  rw [procLine]
  by_cases hc : (cfg.convert_tabs && !cfg.keep_tabs) = true
  · rw [if_pos hc]
    by_cases ha : cfg.aggressive_tabs = true
    · rw [convertLine, if_pos ha, rstrip_eq_nil_iff]
      constructor
      · intro h c hcl
        by_contra hns
        have hnt : c ≠ '\t' := by
          intro e
          rw [e] at hns
          exact hns (by decide)
        have := h c (mem_expandTabs_of_ne_tab hcl hnt)
        exact hns this
      · intro h c hce
        have := expandTabs_all_space h c hce
        rw [this]
        decide
    · rw [convertLine, if_neg ha, rstrip_eq_nil_iff]
      constructor
      · intro h c hcl
        by_contra hns
        have hd : l.dropWhile isSpTab ≠ [] := by
          intro e
          rw [List.dropWhile_eq_nil_iff] at e
          exact hns (e c hcl)
        cases he : l.dropWhile isSpTab with
        | nil => exact hd he
        | cons x xs =>
          have hx : isSpTab x = false := dropWhile_head_false he
          have : isSpTab x = true := h x (by rw [he]; simp)
          rw [hx] at this
          exact absurd this (by decide)
      · intro h c hce
        rcases List.mem_append.mp hce with h1 | h1
        · have h2 : ∀ x ∈ l.takeWhile isSpTab, isSpTab x = true :=
            fun x hx => h x ((List.takeWhile_sublist _).mem hx)
          have := expandTabs_all_space h2 c h1
          rw [this]
          decide
        · exact h c ((List.dropWhile_sublist _).mem h1)
  · rw [if_neg hc, rstrip_eq_nil_iff]

theorem convertLine_rstrip_fixed (n : Nat) (a : Bool) (l : List Char) :
    convertLine n a (rstrip (convertLine n a l)) = rstrip (convertLine n a l) := by
  cases a with
  | true =>
    rw [convertLine, if_pos rfl, convertLine, if_pos rfl]
    apply expandTabs_eq_self
    intro h
    exact no_tab_expandTabs (mem_rstrip h)
  | false =>
    rw [convertLine, if_neg (by simp), convertLine, if_neg (by simp)]
    have hA : ∀ x ∈ l.takeWhile isSpTab, isSpTab x = true :=
      fun x hx => List.mem_takeWhile_imp hx
    have hE : ∀ x ∈ expandTabs n (l.takeWhile isSpTab), x = ' ' :=
      expandTabs_all_space hA
    have hEsp : ∀ x ∈ expandTabs n (l.takeWhile isSpTab), isSpTab x = true := by
      intro x hx
      rw [hE x hx]
      decide
    cases hB : l.dropWhile isSpTab with
    | nil =>
      have h0 : rstrip (expandTabs n (l.takeWhile isSpTab) ++ ([] : List Char)) = [] := by
        rw [List.append_nil, rstrip_eq_nil_iff]
        exact hEsp
      rw [h0]
      simp [expandTabs]
    | cons c b =>
      have hc : isSpTab c = false := dropWhile_head_false hB
      have hrb : rstrip (c :: b) = c :: rstrip b := rstrip_cons_of_false hc
      have hrbne : rstrip (c :: b) ≠ [] := by rw [hrb]; simp
      rw [rstrip_append hrbne, hrb]
      obtain ⟨ht, hd⟩ := takeWhile_all_append (r := rstrip b) hEsp hc
      rw [ht, hd]
      rw [expandTabs_eq_self (fun hm => absurd (hE _ hm) (by decide))]

theorem procLine_idem (cfg : Config) (l : List Char) :
    procLine cfg (procLine cfg l) = procLine cfg l := by
  by_cases hc : (cfg.convert_tabs && !cfg.keep_tabs) = true
  · rw [procLine, procLine, if_pos hc, if_pos hc,
      convertLine_rstrip_fixed, rstrip_idem]
  · rw [procLine, procLine, if_neg hc, if_neg hc, rstrip_idem]

end Reformat

namespace Reformat

theorem noCR_nlNorm (s : List Char) : '\r' ∉ nlNorm s := by
  unfold nlNorm
  intro h
  rcases List.mem_map.mp h with ⟨c, hc, e⟩
  by_cases h1 : c = '\r' <;> simp [h1] at e

theorem replCRLF_eq_self : ∀ {s : List Char}, '\r' ∉ s → replCRLF s = s
  | [], _ => rfl
  | [c], _ => rfl
  | c :: d :: t, h => by
    have hc : c ≠ '\r' := fun e => h (by simp [e])
    have h2 : replCRLF (d :: t) = d :: t :=
      replCRLF_eq_self (fun hm => h (by simp [hm]))
    rw [replCRLF, if_neg (fun hp => hc hp.1), h2]

theorem nlNorm_eq_self {s : List Char} (h : '\r' ∉ s) : nlNorm s = s := by
  unfold nlNorm
  rw [replCRLF_eq_self h]
  have h2 : ∀ c ∈ s, (if c = '\r' then '\n' else c) = c := by
    intro c hc
    rw [if_neg (fun (e : c = '\r') => h (e ▸ hc))]
  calc s.map (fun c => if c = '\r' then '\n' else c) = s.map id := List.map_congr_left h2
    _ = s := List.map_id s

theorem noCR_normalize (cfg : Config) (s : List Char) :
    '\r' ∉ normalize_text cfg s := by
  intro h
  unfold normalize_text joinFix at h
  have hj : '\r' ∈ joinNl ((splitNl (nlNorm s)).map (procLine cfg)) := by
    by_cases he : endsWithNl (joinNl ((splitNl (nlNorm s)).map (procLine cfg))) = true
    · rwa [if_pos he] at h
    · rw [if_neg he] at h
      rcases List.mem_append.mp h with h1 | h1
      · exact h1
      · simp at h1
  rcases mem_joinNl hj with e | ⟨l, hl, hcl⟩
  · exact absurd e (by decide)
  · rcases List.mem_map.mp hl with ⟨m, hm, hpm⟩
    rcases mem_procLine (hpm ▸ hcl) with h2 | h2
    · exact noCR_nlNorm s (mem_of_mem_splitNl hm h2)
    · exact absurd h2 (by decide)

theorem normalize_ne_nil_getLast (cfg : Config) (s : List Char) :
    normalize_text cfg s ≠ [] ∧ (normalize_text cfg s).getLast? = some '\n' := by
  unfold normalize_text joinFix
  by_cases he : endsWithNl (joinNl ((splitNl (nlNorm s)).map (procLine cfg))) = true
  · rw [if_pos he]
    unfold endsWithNl at he
    rw [beq_iff_eq] at he
    constructor
    · intro e
      rw [e] at he
      simp at he
    · exact he
  · rw [if_neg he]
    exact ⟨by simp, List.getLast?_concat _⟩

theorem noNl_map_procLine {cfg : Config} {s : List Char} :
    ∀ l ∈ (splitNl s).map (procLine cfg), '\n' ∉ l := by
  intro l hl hmem
  rcases List.mem_map.mp hl with ⟨m, hm, hpm⟩
  rcases mem_procLine (hpm ▸ hmem) with h2 | h2
  · exact noNl_mem_splitNl hm h2
  · exact absurd h2 (by decide)

/-- Mapping the per-line transformation twice equals mapping it once. -/
theorem map_procLine_idem (cfg : Config) (L : List (List Char)) :
    (L.map (procLine cfg)).map (procLine cfg) = L.map (procLine cfg) := by
  rw [List.map_map]
  exact List.map_congr_left (fun l _ => procLine_idem cfg l)

end Reformat

namespace Reformat

theorem joinFix_map_procLine (cfg : Config) {L : List (List Char)}
    (hne : L ≠ []) (hnoNl : ∀ l ∈ L, '\n' ∉ l)
    (hidem : L.map (procLine cfg) = L) :
    joinFix ((splitNl (joinFix L)).map (procLine cfg)) = joinFix L := by
  by_cases he : endsWithNl (joinNl L) = true
  · have h1 : joinFix L = joinNl L := by rw [joinFix, if_pos he]
    rw [h1, splitNl_joinNl hne hnoNl, hidem, joinFix, if_pos he]
  · have h1 : joinFix L = joinNl (L ++ [[]]) := by
      rw [joinFix, if_neg he, joinNl_concat hne]
    have hne2 : L ++ [([] : List Char)] ≠ [] := by simp
    have hnoNl2 : ∀ l ∈ L ++ [([] : List Char)], '\n' ∉ l := by
      intro l hl
      rcases List.mem_append.mp hl with h2 | h2
      · exact hnoNl l h2
      · simp at h2
        subst h2
        simp
    have hidem2 : (L ++ [([] : List Char)]).map (procLine cfg) = L ++ [[]] := by
      rw [List.map_append, hidem]
      simp [procLine_nil]
    have h3 : joinNl (L ++ [([] : List Char)]) = joinNl L ++ ['\n'] := by
      rw [joinNl_concat hne]
    rw [h1, splitNl_joinNl hne2 hnoNl2, hidem2, joinFix, h3,
      if_pos (endsWithNl_concat_nl _)]

end Reformat

namespace Reformat

/-- C3: normalization is idempotent: for every input text and every
configuration (any indent size, tab-conversion mode, aggressive flag
and keep-tabs flag) applying normalize_text twice yields the same text
as applying it once. -/
theorem normalize_idempotent (cfg : Config) (s : List Char) :
    normalize_text cfg (normalize_text cfg s) = normalize_text cfg s := by
  have key := joinFix_map_procLine cfg
    (L := (splitNl (nlNorm s)).map (procLine cfg))
    (by
      intro e
      exact splitNl_ne_nil (nlNorm s) (List.map_eq_nil_iff.mp e))
    noNl_map_procLine (map_procLine_idem cfg _)
  calc normalize_text cfg (normalize_text cfg s)
      = joinFix ((splitNl (nlNorm (normalize_text cfg s))).map (procLine cfg)) := rfl
    _ = joinFix ((splitNl (normalize_text cfg s)).map (procLine cfg)) := by
        rw [nlNorm_eq_self (noCR_normalize cfg s)]
    _ = normalize_text cfg s := key

/-- C7: newline unification: the nlNorm step leaves no carriage return
(every CR-LF and every lone CR became a single LF), and the output of
normalize_text contains no carriage return for any configuration. -/
theorem normalize_no_carriage_return (cfg : Config) (s : List Char) :
    '\r' ∉ nlNorm s ∧ '\r' ∉ normalize_text cfg s :=
  ⟨noCR_nlNorm s, noCR_normalize cfg s⟩

/-- C8: with indent size 4 and tab conversion enabled, the single line
of a tab, foo, a tab, bar normalizes in default mode to four spaces,
foo, the inner tab kept, bar, plus the final newline, while aggressive
mode also expands the inner tab to four spaces. -/
theorem leading_vs_aggressive_example :
    normalize_text ⟨4, true, false, false⟩ (("\tfoo\tbar").data) =
      ("    foo\tbar\n").data ∧
    normalize_text ⟨4, true, true, false⟩ (("\tfoo\tbar").data) =
      ("    foo    bar\n").data := by
  constructor <;> decide

end Reformat

namespace Reformat

theorem append_singleton_inj {α : Type _} {u v : List α} {p q : α}
    (h : u ++ [p] = v ++ [q]) : u = v ∧ p = q := by
  constructor
  · have h2 := congrArg List.dropLast h
    rwa [List.dropLast_concat, List.dropLast_concat] at h2
  · have h2 := congrArg List.getLast? h
    rw [List.getLast?_concat, List.getLast?_concat] at h2
    exact Option.some.inj h2

theorem mem_getLast? {α : Type _} {l : List α} {a : α}
    (h : l.getLast? = some a) : a ∈ l := by
  cases l with
  | nil => simp at h
  | cons c t =>
    have hne : (c :: t) ≠ [] := by simp
    rw [List.getLast?_eq_getLast _ hne] at h
    exact (Option.some.inj h) ▸ List.getLast_mem hne

theorem joinNl_last_nl {L1 : List (List Char)} {a m : List Char}
    (hne : L1 ≠ []) (hnl_a : '\n' ∉ a)
    (h : joinNl (L1 ++ [a]) = m ++ ['\n']) :
    a = [] ∧ joinNl L1 = m := by
  rw [joinNl_concat hne] at h
  by_cases hane : a = []
  · subst hane
    obtain ⟨h1, _⟩ := append_singleton_inj h
    exact ⟨rfl, h1⟩
  · exfalso
    have h2 := congrArg List.getLast? h
    have e1 : joinNl L1 ++ '\n' :: a = (joinNl L1 ++ ['\n']) ++ a := by simp
    rw [e1, List.getLast?_append_of_ne_nil _ hane, List.getLast?_concat] at h2
    exact hnl_a (mem_getLast? h2)

theorem joinNl_ends_two_nl {L : List (List Char)} {m : List Char}
    (hnl : ∀ l ∈ L, '\n' ∉ l) (h : joinNl L = m ++ ['\n', '\n']) :
    ∃ O, O ≠ [] ∧ L = O ++ [[], []] := by
  rcases List.eq_nil_or_concat L with hL | ⟨L1, a, hL⟩
  · subst hL
    have := congrArg List.length h
    simp [joinNl] at this
  · rw [List.concat_eq_append] at hL
    subst hL
    have hnl_a : '\n' ∉ a := hnl a (by simp)
    rcases List.eq_nil_or_concat L1 with hL1 | ⟨L2, b, hL1⟩
    · subst hL1
      have ha : joinNl ([] ++ [a]) = a := by simp [joinNl]
      rw [ha] at h
      exact absurd (by rw [h]; simp : '\n' ∈ a) hnl_a
    · rw [List.concat_eq_append] at hL1
      subst hL1
      have hne1 : L2 ++ [b] ≠ [] := by simp
      have h' : joinNl ((L2 ++ [b]) ++ [a]) = (m ++ ['\n']) ++ ['\n'] := by
        rw [h]; simp
      obtain ⟨ha0, h1⟩ := joinNl_last_nl hne1 hnl_a h'
      have hnl_b : '\n' ∉ b := hnl b (by simp)
      rcases List.eq_nil_or_concat L2 with hL2 | ⟨L3, c, hL2⟩
      · subst hL2
        have hb : joinNl ([] ++ [b]) = b := by simp [joinNl]
        rw [hb] at h1
        exact absurd (by rw [h1]; simp : '\n' ∈ b) hnl_b
      · have hne2 : L2 ≠ [] := by rw [hL2, List.concat_eq_append]; simp
        obtain ⟨hb0, _⟩ := joinNl_last_nl hne2 hnl_b h1
        refine ⟨L2, hne2, ?_⟩
        rw [ha0, hb0]
        simp

theorem map_eq_append_pair {f : List Char → List Char}
    {lines O : List (List Char)} {x y : List Char}
    (h : lines.map f = O ++ [x, y]) :
    ∃ M a b, lines = M ++ [a, b] ∧ f a = x ∧ f b = y := by
  rcases List.eq_nil_or_concat lines with hL | ⟨M1, a, hL⟩
  · subst hL
    have := congrArg List.length h
    simp at this
  · rw [List.concat_eq_append] at hL
    subst hL
    rw [List.map_append] at h
    have h' : M1.map f ++ [f a] = (O ++ [x]) ++ [y] := by
      simpa using h
    obtain ⟨h1, h2⟩ := append_singleton_inj h'
    rcases List.eq_nil_or_concat M1 with hM | ⟨M, b, hM⟩
    · subst hM
      have := congrArg List.length h1
      simp at this
    · rw [List.concat_eq_append] at hM
      subst hM
      rw [List.map_append] at h1
      have h1' : M.map f ++ [f b] = O ++ [x] := by simpa using h1
      obtain ⟨h3, h4⟩ := append_singleton_inj h1'
      exact ⟨M, b, a, by simp, h4, h2⟩

/-- C4: for every input text the output of normalize_text is nonempty
and ends with a newline (one is appended when absent), and it ends
with two consecutive newlines only when the line decomposition of the
newline-unified input itself ends with two whitespace-only lines;
conversely such trailing blank lines are preserved, not collapsed. -/
theorem trailing_newline_law (cfg : Config) (s : List Char) :
    (normalize_text cfg s ≠ [] ∧ (normalize_text cfg s).getLast? = some '\n') ∧
    ((∃ m, normalize_text cfg s = m ++ ['\n', '\n']) →
      ∃ L l1 l2, splitNl (nlNorm s) = L ++ [l1, l2] ∧
        (∀ c ∈ l1, isSpTab c = true) ∧ (∀ c ∈ l2, isSpTab c = true)) ∧
    (∀ L l1 l2, splitNl (nlNorm s) = L ++ [l1, l2] → L ≠ [] →
      (∀ c ∈ l1, isSpTab c = true) → (∀ c ∈ l2, isSpTab c = true) →
      ∃ m, normalize_text cfg s = m ++ ['\n', '\n']) := by
  refine ⟨normalize_ne_nil_getLast cfg s, ?_, ?_⟩
  · rintro ⟨m, hm⟩
    by_cases he : endsWithNl (joinNl ((splitNl (nlNorm s)).map (procLine cfg))) = true
    · have hm' : joinNl ((splitNl (nlNorm s)).map (procLine cfg)) = m ++ ['\n', '\n'] := by
        have e : normalize_text cfg s =
            joinNl ((splitNl (nlNorm s)).map (procLine cfg)) := by
          rw [normalize_text, joinFix, if_pos he]
        rwa [e] at hm
      obtain ⟨O, hOne, hOdec⟩ := joinNl_ends_two_nl noNl_map_procLine hm'
      obtain ⟨M, a, b, hlines, hfa, hfb⟩ := map_eq_append_pair hOdec
      exact ⟨M, a, b, hlines, procLine_eq_nil_iff.mp hfa,
        procLine_eq_nil_iff.mp hfb⟩
    · exfalso
      have e : normalize_text cfg s =
          joinNl ((splitNl (nlNorm s)).map (procLine cfg)) ++ ['\n'] := by
        rw [normalize_text, joinFix, if_neg he]
      rw [e] at hm
      have hm2 : joinNl ((splitNl (nlNorm s)).map (procLine cfg)) ++ ['\n'] =
          (m ++ ['\n']) ++ ['\n'] := by rw [hm]; simp
      obtain ⟨h1, _⟩ := append_singleton_inj hm2
      apply he
      rw [endsWithNl, h1, List.getLast?_concat]
      rfl
  · intro L l1 l2 hsplit hLne h1 h2
    have hOUT : (splitNl (nlNorm s)).map (procLine cfg) =
        L.map (procLine cfg) ++ [[], []] := by
      rw [hsplit, List.map_append]
      simp [procLine_eq_nil_iff.mpr h1, procLine_eq_nil_iff.mpr h2]
    have hMne : L.map (procLine cfg) ≠ [] := by
      intro e
      exact hLne (List.map_eq_nil_iff.mp e)
    have hMne2 : L.map (procLine cfg) ++ [([] : List Char)] ≠ [] := by simp
    have hjoin : joinNl ((splitNl (nlNorm s)).map (procLine cfg)) =
        (joinNl (L.map (procLine cfg)) ++ ['\n']) ++ ['\n'] := by
      rw [hOUT]
      have e2 : L.map (procLine cfg) ++ [([] : List Char), []] =
          (L.map (procLine cfg) ++ [[]]) ++ [[]] := by simp
      rw [e2, joinNl_concat hMne2, joinNl_concat hMne]
    have he : endsWithNl (joinNl ((splitNl (nlNorm s)).map (procLine cfg))) = true := by
      rw [hjoin, endsWithNl, List.getLast?_concat]
      rfl
    refine ⟨joinNl (L.map (procLine cfg)), ?_⟩
    rw [normalize_text, joinFix, if_pos he, hjoin]
    simp

end Reformat

namespace Reformat

theorem processFile_decoded (env : Env) (a : Args) (raw : List Byte)
    (d : List Char) (hr : env.raw = some raw)
    (ht : is_potentially_text env.path (raw.take 8192) = true)
    (hd : decodeStep env a raw = Except.ok (some d)) :
    processFile env a = .ok (afterDecode env a raw d) := by
  simp [processFile, hr, ht, hd]

theorem processFile_skip_undecodable (env : Env) (a : Args) (raw : List Byte)
    (hr : env.raw = some raw)
    (ht : is_potentially_text env.path (raw.take 8192) = true)
    (hd : decodeStep env a raw = Except.ok none) :
    processFile env a = .ok skipResult := by
  simp [processFile, hr, ht, hd]

theorem processFile_uncaught (env : Env) (a : Args) (raw : List Byte)
    (e : DecErr) (hr : env.raw = some raw)
    (ht : is_potentially_text env.path (raw.take 8192) = true)
    (hd : decodeStep env a raw = Except.error e) :
    processFile env a = .error e := by
  simp [processFile, hr, ht, hd]

theorem runFiles_cons_ok {env : Env} {a : Args} {r : PResult} (es : List Env)
    (h : processFile env a = .ok r) :
    runFiles a (env :: es) = (runFiles a es).map (fun rs => r :: rs) := by
  simp [runFiles, h]

theorem runFiles_cons_error {env : Env} {a : Args} {e : DecErr} (es : List Env)
    (h : processFile env a = .error e) :
    runFiles a (env :: es) = .error e := by
  simp [runFiles, h]

theorem afterDecode_write_fail (env : Env) (a : Args) (raw : List Byte)
    (d : List Char)
    (hne : utf8Encode (normalize_text
      ⟨INDENT_SIZE, true, a.aggressive, is_makefile_like env.path⟩ d) ≠ raw)
    (hc : a.checkOnly = false) (hw : env.writeOk = false) :
    afterDecode env a raw d = ⟨false, none, false, some .errorWriting⟩ := by
  simp [afterDecode, hne, hc, hw]

theorem afterDecode_check_changed (env : Env) (a : Args) (raw : List Byte)
    (d : List Char)
    (hne : utf8Encode (normalize_text
      ⟨INDENT_SIZE, true, a.aggressive, is_makefile_like env.path⟩ d) ≠ raw)
    (hc : a.checkOnly = true) :
    afterDecode env a raw d = ⟨true, none, false, some .needsFix⟩ := by
  simp [afterDecode, hne, hc]

theorem afterDecode_write_ok (env : Env) (a : Args) (raw : List Byte)
    (d : List Char)
    (hne : utf8Encode (normalize_text
      ⟨INDENT_SIZE, true, a.aggressive, is_makefile_like env.path⟩ d) ≠ raw)
    (hc : a.checkOnly = false) (hw : env.writeOk = true) :
    afterDecode env a raw d = ⟨true, some (utf8Encode (normalize_text
      ⟨INDENT_SIZE, true, a.aggressive, is_makefile_like env.path⟩ d)),
      a.restage, some .fixed⟩ := by
  simp [afterDecode, hne, hc, hw]

end Reformat

namespace Reformat

/-- C1 counterexample: the path Makefile is classified tab-sensitive
and the input of one letter followed by a tab contains a tab, yet the
normalized output (with keep-tabs taken from the classification, in
either aggressive mode) contains no tab: the trailing tab was removed
by the trailing-whitespace trim, so not every tab byte is preserved. -/
theorem tab_sensitive_counterexample :
    is_makefile_like ⟨("Makefile").data⟩ = true ∧
    '\t' ∈ ("a\t").data ∧
    '\t' ∉ normalize_text ⟨INDENT_SIZE, true, false,
      is_makefile_like ⟨("Makefile").data⟩⟩ (("a\t").data) ∧
    '\t' ∉ normalize_text ⟨INDENT_SIZE, true, true,
      is_makefile_like ⟨("Makefile").data⟩⟩ (("a\t").data) := by
  decide

/-- C1 amended: for a path classified tab-sensitive, normalize_text
never expands or moves a tab: the output does not depend on the
aggressive-tabs flag, the indent size or the tab-conversion flag, and
each line is processed by the trailing trim alone, so every line of
the result is the prefix of its input line obtained by removing a
trailing run of spaces and tabs; a tab can only disappear as part of
that trailing-whitespace trim, never become spaces. -/
theorem tab_sensitive_amended (p : PyPath) (s : List Char)
    (n1 n2 : Nat) (ct1 ct2 ag1 ag2 : Bool)
    (h : is_makefile_like p = true) :
    normalize_text ⟨n1, ct1, ag1, is_makefile_like p⟩ s =
      normalize_text ⟨n2, ct2, ag2, is_makefile_like p⟩ s ∧
    (∀ l ∈ splitNl (nlNorm s),
      procLine ⟨n1, ct1, ag1, is_makefile_like p⟩ l = rstrip l ∧
      ∃ t, l = rstrip l ++ t ∧ ∀ c ∈ t, isSpTab c = true) := by
  constructor
  · rw [normalize_text, normalize_text]
    congr 1
    apply List.map_congr_left
    intro l _
    rw [procLine_keep h l, procLine_keep h l]
  · intro l _
    exact ⟨procLine_keep h l, (l.reverse.takeWhile isSpTab).reverse,
      (rstrip_decomp l).1, (rstrip_decomp l).2⟩

/-- C1 witness: the amended statement at the Makefile path, a concrete
text with an inner and a trailing tab, and two different
configurations. -/
theorem tab_sensitive_amended_witness :
    normalize_text ⟨4, true, true, is_makefile_like ⟨("Makefile").data⟩⟩
      (("a\tb\t").data) =
      normalize_text ⟨0, false, false, is_makefile_like ⟨("Makefile").data⟩⟩
        (("a\tb\t").data) ∧
    (∀ l ∈ splitNl (nlNorm (("a\tb\t").data)),
      procLine ⟨4, true, true, is_makefile_like ⟨("Makefile").data⟩⟩ l = rstrip l ∧
      ∃ t, l = rstrip l ++ t ∧ ∀ c ∈ t, isSpTab c = true) :=
  tab_sensitive_amended ⟨("Makefile").data⟩ (("a\tb\t").data)
    4 0 true false true false (by decide)

/-- C2: in write mode, when reading and normalizing succeeded but
writing the new bytes fails, process_file returns the write-error
outcome, which differs from the result of every skip path, requests no
re-staging, and the remaining files of the list are still processed in
order. -/
theorem write_failure_isolated (env : Env) (a : Args) (raw : List Byte)
    (d : List Char) (es : List Env)
    (hr : env.raw = some raw)
    (ht : is_potentially_text env.path (raw.take 8192) = true)
    (hd : decodeStep env a raw = Except.ok (some d))
    (hne : utf8Encode (normalize_text
      ⟨INDENT_SIZE, true, a.aggressive, is_makefile_like env.path⟩ d) ≠ raw)
    (hc : a.checkOnly = false) (hw : env.writeOk = false) :
    processFile env a = .ok ⟨false, none, false, some .errorWriting⟩ ∧
    (⟨false, none, false, some .errorWriting⟩ : PResult) ≠ skipResult ∧
    runFiles a (env :: es) = (runFiles a es).map
      (fun rs => (⟨false, none, false, some .errorWriting⟩ : PResult) :: rs) := by
  have hp : processFile env a = .ok ⟨false, none, false, some .errorWriting⟩ := by
    rw [processFile_decoded env a raw d hr ht hd,
      afterDecode_write_fail env a raw d hne hc hw]
  exact ⟨hp, by decide, runFiles_cons_ok es hp⟩

/-- C2 witness: a concrete undersized text file whose write fails. -/
theorem write_failure_isolated_witness :
    processFile ⟨⟨("a.txt").data⟩, some [97, 13, 10],
        Except.error DecErr.unicode, false⟩ ⟨false, false, false, false⟩ =
      .ok ⟨false, none, false, some .errorWriting⟩ ∧
    (⟨false, none, false, some .errorWriting⟩ : PResult) ≠ skipResult ∧
    runFiles ⟨false, false, false, false⟩
        [⟨⟨("a.txt").data⟩, some [97, 13, 10], Except.error DecErr.unicode, false⟩] =
      (runFiles ⟨false, false, false, false⟩ []).map
        (fun rs => (⟨false, none, false, some .errorWriting⟩ : PResult) :: rs) :=
  write_failure_isolated
    ⟨⟨("a.txt").data⟩, some [97, 13, 10], Except.error DecErr.unicode, false⟩
    ⟨false, false, false, false⟩ [97, 13, 10] (("a\r\n").data) []
    rfl (by decide) (by decide) (by decide) rfl rfl

/-- C5: in check-only mode process_file never writes and never
re-stages whatever the file is; for a file needing changes it returns
True with the needs-fix message and untouched bytes; and main's exit
code is 1 exactly when some processed file reported a change, else
0. -/
theorem check_mode_never_writes (a : Args) (ha : a.checkOnly = true) :
    (∀ env r, processFile env a = .ok r → r.written = none ∧ r.restaged = false) ∧
    (∀ env raw d, env.raw = some raw →
      is_potentially_text env.path (raw.take 8192) = true →
      decodeStep env a raw = Except.ok (some d) →
      utf8Encode (normalize_text ⟨INDENT_SIZE, true, a.aggressive,
        is_makefile_like env.path⟩ d) ≠ raw →
      processFile env a = .ok ⟨true, none, false, some .needsFix⟩) ∧
    (∀ envs rs, runFiles a envs = .ok rs →
      mainExit a envs = .ok (if rs.any (fun r => r.ret) then 1 else 0)) := by
  refine ⟨?_, ?_, ?_⟩
  · intro env r h
    unfold processFile at h
    cases hr : env.raw with
    | none =>
      rw [hr] at h
      simp at h
      rw [← h]
      exact ⟨rfl, rfl⟩
    | some raw =>
      rw [hr] at h
      simp only [] at h
      by_cases ht : is_potentially_text env.path (raw.take 8192) = true
      · rw [if_pos ht] at h
        cases hd : decodeStep env a raw with
        | error e =>
          rw [hd] at h
          simp at h
        | ok o =>
          rw [hd] at h
          cases o with
          | none =>
            simp at h
            rw [← h]
            exact ⟨rfl, rfl⟩
          | some d =>
            simp at h
            rw [← h]
            unfold afterDecode
            by_cases hne : utf8Encode (normalize_text ⟨INDENT_SIZE, true,
                a.aggressive, is_makefile_like env.path⟩ d) ≠ raw
            · rw [if_pos hne, if_pos ha]
              exact ⟨rfl, rfl⟩
            · rw [if_neg hne]
              exact ⟨rfl, rfl⟩
      · rw [if_neg ht] at h
        simp at h
        rw [← h]
        exact ⟨rfl, rfl⟩
  · intro env raw d hr ht hd hne
    rw [processFile_decoded env a raw d hr ht hd,
      afterDecode_check_changed env a raw d hne ha]
  · intro envs rs h
    unfold mainExit
    rw [h]
    simp [Except.map, ha]

/-- C5 witness: a concrete file with CR-LF content in check mode. -/
theorem check_mode_never_writes_witness :
    processFile ⟨⟨("a.txt").data⟩, some [97, 13, 10],
        Except.error DecErr.unicode, true⟩ ⟨false, false, true, false⟩ =
      .ok ⟨true, none, false, some .needsFix⟩ :=
  (check_mode_never_writes ⟨false, false, true, false⟩ rfl).2.1
    ⟨⟨("a.txt").data⟩, some [97, 13, 10], Except.error DecErr.unicode, true⟩
    [97, 13, 10] (("a\r\n").data) rfl (by decide) (by decide) (by decide)

/-- C6: two-tier decoding of process_file: bytes invalid under UTF-8
(with tolerated BOM) but recovered by a supplied legacy decoder are
decoded by the fallback and flow into the normalize, re-encode and
compare tail; the same bytes with no legacy encoding supplied are
skipped; bytes also invalid under the fallback produce the decode
failure mapped to the same benign skip. -/
theorem decode_fallback_tiers (env : Env) (a : Args) (raw : List Byte)
    (hr : env.raw = some raw)
    (ht : is_potentially_text env.path (raw.take 8192) = true)
    (hu : utf8SigDecode raw = none) :
    (∀ t, a.recodeFrom = true → env.fallbackDec = Except.ok t →
      processFile env a = .ok (afterDecode env a raw t)) ∧
    (a.recodeFrom = false → processFile env a = .ok skipResult) ∧
    (a.recodeFrom = true → env.fallbackDec = Except.error DecErr.unicode →
      processFile env a = .ok skipResult) := by
  refine ⟨?_, ?_, ?_⟩
  · intro t hrf hfb
    exact processFile_decoded env a raw t hr ht (by simp [decodeStep, hu, hrf, hfb])
  · intro hrf
    exact processFile_skip_undecodable env a raw hr ht (by simp [decodeStep, hu, hrf])
  · intro hrf hfb
    exact processFile_skip_undecodable env a raw hr ht
      (by simp [decodeStep, hu, hrf, hfb])

/-- C6 witness: the byte 255 is invalid UTF-8; with a fallback decoder
yielding a two-letter text the file flows into the normalization tail. -/
theorem decode_fallback_tiers_witness :
    processFile ⟨⟨("a.txt").data⟩, some [255], Except.ok (("ok").data), true⟩
        ⟨true, false, false, false⟩ =
      .ok (afterDecode ⟨⟨("a.txt").data⟩, some [255], Except.ok (("ok").data), true⟩
        ⟨true, false, false, false⟩ [255] (("ok").data)) :=
  (decode_fallback_tiers
    ⟨⟨("a.txt").data⟩, some [255], Except.ok (("ok").data), true⟩
    ⟨true, false, false, false⟩ [255] rfl (by decide) (by decide)).1
    (("ok").data) rfl rfl

/-- C9: when the supplied fallback encoding is unknown to the platform
(its decode raises a codec lookup error, not a Unicode error), a file
whose bytes are not valid UTF-8 but pass the text classification makes
process_file propagate the uncaught exception instead of returning any
outcome, and the file loop aborts. -/
theorem unknown_codec_uncaught (env : Env) (a : Args) (raw : List Byte)
    (es : List Env) (hr : env.raw = some raw)
    (ht : is_potentially_text env.path (raw.take 8192) = true)
    (hu : utf8SigDecode raw = none) (hrf : a.recodeFrom = true)
    (hl : env.fallbackDec = Except.error DecErr.lookup) :
    processFile env a = .error DecErr.lookup ∧
    runFiles a (env :: es) = .error DecErr.lookup := by
  have hp : processFile env a = .error DecErr.lookup :=
    processFile_uncaught env a raw DecErr.lookup hr ht
      (by simp [decodeStep, hu, hrf, hl])
  exact ⟨hp, runFiles_cons_error es hp⟩

/-- C9 witness: one invalid byte, a lookup-failing fallback, and one
further file in the list that is never reached. -/
theorem unknown_codec_uncaught_witness :
    processFile ⟨⟨("a.txt").data⟩, some [255], Except.error DecErr.lookup, true⟩
        ⟨true, false, false, false⟩ = .error DecErr.lookup ∧
    runFiles ⟨true, false, false, false⟩
        [⟨⟨("a.txt").data⟩, some [255], Except.error DecErr.lookup, true⟩,
         ⟨⟨("b.txt").data⟩, some [97], Except.error DecErr.unicode, true⟩] =
      .error DecErr.lookup :=
  unknown_codec_uncaught
    ⟨⟨("a.txt").data⟩, some [255], Except.error DecErr.lookup, true⟩
    ⟨true, false, false, false⟩ [255]
    [⟨⟨("b.txt").data⟩, some [97], Except.error DecErr.unicode, true⟩]
    rfl (by decide) (by decide) rfl rfl

/-- C10: normalize_text never returns the empty text: the empty input
yields a single newline, and a readable, decodable zero-byte file is
reported changed and, in write mode with a succeeding write, rewritten
to exactly one LF byte. -/
theorem empty_input_one_newline (cfg : Config) (env : Env) (a : Args)
    (h1 : env.raw = some []) (h2 : is_potentially_text env.path [] = true)
    (h3 : a.checkOnly = false) (h4 : env.writeOk = true) :
    (∀ s, normalize_text cfg s ≠ []) ∧
    normalize_text cfg [] = ['\n'] ∧
    processFile env a = .ok ⟨true, some [10], a.restage, some .fixed⟩ := by
  have hnil : ∀ c : Config, normalize_text c [] = ['\n'] := by
    intro c
    rw [normalize_text]
    have e1 : splitNl (nlNorm []) = [[]] := rfl
    rw [e1]
    simp [procLine_nil, joinFix, joinNl, endsWithNl]
  refine ⟨fun s => (normalize_ne_nil_getLast cfg s).1, hnil cfg, ?_⟩
  have hd : decodeStep env a [] = Except.ok (some []) := rfl
  have henc : utf8Encode (normalize_text
      ⟨INDENT_SIZE, true, a.aggressive, is_makefile_like env.path⟩ []) = [10] := by
    rw [hnil]
    rfl
  have hne : utf8Encode (normalize_text
      ⟨INDENT_SIZE, true, a.aggressive, is_makefile_like env.path⟩ []) ≠
      ([] : List Byte) := by
    rw [henc]
    simp
  rw [processFile_decoded env a [] [] h1 h2 hd,
    afterDecode_write_ok env a [] [] hne h3 h4, henc]

/-- C10 witness: a zero-byte text file in write mode. -/
theorem empty_input_one_newline_witness :
    normalize_text ⟨4, true, false, false⟩ [] = ['\n'] ∧
    processFile ⟨⟨("a.txt").data⟩, some [], Except.error DecErr.unicode, true⟩
        ⟨false, false, false, false⟩ = .ok ⟨true, some [10], false, some .fixed⟩ :=
  ⟨(empty_input_one_newline ⟨4, true, false, false⟩
      ⟨⟨("a.txt").data⟩, some [], Except.error DecErr.unicode, true⟩
      ⟨false, false, false, false⟩ rfl (by decide) rfl rfl).2.1,
   (empty_input_one_newline ⟨4, true, false, false⟩
      ⟨⟨("a.txt").data⟩, some [], Except.error DecErr.unicode, true⟩
      ⟨false, false, false, false⟩ rfl (by decide) rfl rfl).2.2⟩

/-- C4 witness: the input of a letter and two newlines ends with two
blank lines, and the normalized output keeps the double newline. -/
theorem trailing_newline_law_witness :
    ∃ m, normalize_text ⟨4, true, false, false⟩ (("a\n\n").data) =
      m ++ ['\n', '\n'] :=
  (trailing_newline_law ⟨4, true, false, false⟩ (("a\n\n").data)).2.2
    [("a").data] [] [] (by decide) (by decide) (by decide) (by decide)

end Reformat
